import Mathlib

/-! Verification of the novel-refiner chapter segmentation and range resolution.

Shallow embedding of `scripts/novel_refiner.py`.  Text is modelled as
`List Char`; Python strings index by code point, so this is faithful.
File-system state that the claims need (file names, sizes, existence of a
merged block) is passed explicitly; IO effects (logging, writing) are
represented by the returned data.

Python's `\d` matches any Unicode decimal digit; the texts handled by this
tool use ASCII digits and the embedding fixes `\d` to `0-9`.  All claims are
insensitive to this choice: a character outside `0-9` is treated as a
non-digit uniformly in the filter, the extraction and the gate.
-/

set_option maxRecDepth 100000

namespace NovelRefiner

/-! ## Character classes -/

/-- Line-boundary characters of Python `str.splitlines` (besides the CRLF
pair which is handled as a unit): `\n`, `\r`, `\v`, `\f`, FS, GS, RS, NEL,
LINE SEPARATOR, PARAGRAPH SEPARATOR. -/
def isLineBreak (c : Char) : Bool :=
  c = '\n' || c = '\r' || c = '\x0b' || c = '\x0c' ||
  c = '\x1c' || c = '\x1d' || c = '\x1e' || c = '\x85' ||
  c.toNat = 0x2028 || c.toNat = 0x2029

/-- Whitespace as matched by Python's `\s` (and stripped by `str.strip()`):
ASCII whitespace, the C1/Unicode space separators and the two separator
control characters. -/
def isPySpace (c : Char) : Bool :=
  c = ' ' || c = '\t' || c = '\n' || c = '\r' || c = '\x0b' || c = '\x0c' ||
  c = '\x1c' || c = '\x1d' || c = '\x1e' || c = '\x1f' || c = '\x85' ||
  c = '\xa0' || c.toNat = 0x1680 ||
  (0x2000 <= c.toNat && c.toNat <= 0x200a) ||
  c.toNat = 0x2028 || c.toNat = 0x2029 || c.toNat = 0x202f ||
  c.toNat = 0x205f || c.toNat = 0x3000

/-- The invisible control characters removed by `clean_content`
(regex character class U+200B-U+200F, U+202A-U+202E, U+2060-U+206F, U+061C; line 80). -/
def isStrippedControl (c : Char) : Bool :=
  (0x200b ≤ c.toNat && c.toNat ≤ 0x200f) ||
  (0x202a ≤ c.toNat && c.toNat ≤ 0x202e) ||
  (0x2060 ≤ c.toNat && c.toNat ≤ 0x206f) ||
  c.toNat = 0x61c

/-- ASCII decimal digit (model of `\d`, see the header note). -/
def isAsciiDigit (c : Char) : Bool := '0' ≤ c && c ≤ '9'

/-! ## `str.splitlines` / `"\n".join` -/

/-- Python `str.splitlines()`, fuel-based so that it is structurally
recursive and computable by the kernel: each line is the maximal run of
non-line-break characters; a line is terminated by a single boundary
(`\r\n` counting as one) or by the end of the string; a terminator at the
very end does not open a new empty line.  Every recursive call strictly
shrinks the text, so `s.length + 1` fuel always suffices. -/
def splitlinesF : Nat → List Char → List (List Char)
  | 0, _ => []
  | fuel + 1, s =>
    match s.drop ((s.takeWhile (fun c => !isLineBreak c)).length) with
    | [] => if s.isEmpty then [] else [s.takeWhile (fun c => !isLineBreak c)]
    | '\r' :: '\n' :: tail =>
      s.takeWhile (fun c => !isLineBreak c) :: splitlinesF fuel tail
    | _ :: tail =>
      s.takeWhile (fun c => !isLineBreak c) :: splitlinesF fuel tail

/-- Python `str.splitlines()`. -/
def splitlines (s : List Char) : List (List Char) := splitlinesF (s.length + 1) s

/-- Python `"\n".join(lines)`. -/
def joinLines : List (List Char) → List Char
  | [] => []
  | [l] => l
  | l :: l2 :: rest => l ++ '\n' :: joinLines (l2 :: rest)

/-! ## Substring test (Python `kw in line`) -/

/-- Does `hay` start with `needle`? -/
def listStartsWith : List Char → List Char → Bool
  | [], _ => true
  | _ :: _, [] => false
  | a :: as, b :: bs => a = b && listStartsWith as bs

/-- Python `needle in hay` on strings. -/
def containsSub (needle : List Char) : List Char → Bool
  | [] => listStartsWith needle []
  | c :: rest => listStartsWith needle (c :: rest) || containsSub needle rest

/-! ## `clean_content` (lines 61-86) -/

/-- The advertisement markers of `clean_content` (line 65). -/
def adKeywords : List (List Char) :=
  ["Fanqie-novel-Downloader".toList, "免费下载器下载".toList]

/-- A line survives the ad filter iff it contains no ad keyword. -/
def keepLine (l : List Char) : Bool :=
  !(adKeywords.any (fun kw => containsSub kw l))

/-- `clean_content` (lines 61-86): drop every line containing an ad keyword,
rejoin with `"\n"`, then delete the invisible control characters.  The
logged `removed_count` is a side effect only and is not modelled. -/
def cleanContent (content : List Char) : List Char :=
  let lines := splitlines content
  let cleanedLines := lines.filter keepLine
  let joined := joinLines cleanedLines
  joined.filter (fun c => !isStrippedControl c)

/-! ## The three segmentation regexes (lines 122-127)

Each strategy pattern has the shape
`(?:^|\n|\s)(第 NUMERAL+ MARKER [^\n]*)` where `NUMERAL` is the
classical-numeral class or `\d`, and `MARKER` is `章` or the looser class
`[章节卷集部]`.  The numeral classes are disjoint from the marker classes,
so the backtracking regex is equivalent to maximal munch: consume the
longest numeral run, then require a marker character.  The loose pattern's
alternation `(?:第[classical]+|第\d+)` is deterministic for the same
reason: the character after `第` selects the branch. -/

/-- The classical/Chinese numeral class `[零一二三四五六七八九十百千万土廿卅卌]`. -/
def isClassicalNum (c : Char) : Bool :=
  c = '零' || c = '一' || c = '二' || c = '三' || c = '四' || c = '五' ||
  c = '六' || c = '七' || c = '八' || c = '九' || c = '十' || c = '百' ||
  c = '千' || c = '万' || c = '土' || c = '廿' || c = '卅' || c = '卌'

/-- The loose marker class `[章节卷集部]`. -/
def isLooseMarker (c : Char) : Bool :=
  c = '章' || c = '节' || c = '卷' || c = '集' || c = '部'

/-- The three strategies, in the order of the `strategies` list. -/
inductive Strat where
  | classical
  | arabic
  | loose
deriving DecidableEq

/-- Length of `[^\n]*` (greedy, to the end of the line). -/
def lineRestLen (s : List Char) : Nat :=
  (s.takeWhile (fun c => !(c = '\n'))).length

/-- Length of a heading group `第 NUMERAL+ MARKER [^\n]*` matched at the
start of `s`, or `none` if it does not match there. -/
def groupLenWith (numClass markerClass : Char → Bool) (s : List Char) : Option Nat :=
  match s with
  | '第' :: rest =>
    if (rest.takeWhile numClass).length = 0 then none
    else
      match rest.drop ((rest.takeWhile numClass).length) with
      | m :: tail =>
        if markerClass m then
          some (1 + (rest.takeWhile numClass).length + 1 + lineRestLen tail)
        else none
      | [] => none
  | _ => none

/-- Length of the captured group of each strategy at the start of `s`. -/
def groupLen : Strat → List Char → Option Nat
  | .classical, s => groupLenWith isClassicalNum (fun c => c = '章') s
  | .arabic, s => groupLenWith isAsciiDigit (fun c => c = '章') s
  | .loose, s =>
    (groupLenWith isClassicalNum isLooseMarker s).orElse
      (fun _ => groupLenWith isAsciiDigit isLooseMarker s)

/-- One `re.Match`: `start` is `m.start()`, `gstart` the start of group 1
(`m.start(1)`), `mend` is `m.end()` (the prefix `(?:^|\n|\s)` alternation
makes them differ by at most one). -/
structure RMatch where
  start : Nat
  gstart : Nat
  mend : Nat
deriving DecidableEq

/-- Attempt a match at scan position `p`: at `p = 0` the `^` alternative is
tried first (the heading group starting at 0), then the `\n`/`\s`
alternatives (a single whitespace character followed by the group). -/
def matchAt (st : Strat) (s : List Char) (p : Nat) : Option RMatch :=
  if p = 0 then
    match groupLen st s with
    | some L => some ⟨0, 0, L⟩
    | none =>
      match s with
      | c :: rest =>
        if isPySpace c then (groupLen st rest).map (fun L => ⟨0, 1, 1 + L⟩)
        else none
      | [] => none
  else
    match s.drop p with
    | c :: rest =>
      if isPySpace c then (groupLen st rest).map (fun L => ⟨p, p + 1, p + 1 + L⟩)
      else none
    | [] => none

/-- The scan loop of `re.finditer`: try to match at `p`; on success emit
the match and resume at its end, otherwise advance one position.  Each step
advances the position, so `s.length + 2` fuel always suffices. -/
def finditerAux (st : Strat) (s : List Char) : Nat → Nat → List RMatch
  | _, 0 => []
  | p, fuel + 1 =>
    if s.length < p then []
    else
      match matchAt st s p with
      | some m => m :: finditerAux st s m.mend fuel
      | none => finditerAux st s (p + 1) fuel

/-- `list(pattern.finditer(content))` (line 140). -/
def finditer (st : Strat) (s : List Char) : List RMatch :=
  finditerAux st s 0 (s.length + 2)

/-! ## Strategy selection and part construction (lines 137-153) -/

/-- The `for pattern in strategies` loop (lines 139-153) unrolled over the
literal three-element `strategies` list: the first strategy whose match
list has length `> 5` is accepted together with its matches; once one is
accepted no later strategy is tried; `none` if all fail. -/
def firstAccepted (content : List Char) : Option (Nat × List RMatch) :=
  if 5 < (finditer .classical content).length then
    some (0, finditer .classical content)
  else if 5 < (finditer .arabic content).length then
    some (1, finditer .arabic content)
  else if 5 < (finditer .loose content).length then
    some (2, finditer .loose content)
  else none

/-- The strategy at a given index of the `strategies` list. -/
def stratAt : Nat → Strat
  | 0 => .classical
  | 1 => .arabic
  | _ => .loose

/-- Python slice `l[a:b]`. -/
def sliceList (l : List Char) (a b : Nat) : List Char := (l.take b).drop a

/-- Python `str.strip()`. -/
def pyStrip (l : List Char) : List Char :=
  ((l.dropWhile isPySpace).reverse.dropWhile isPySpace).reverse

/-- `match.group(1).strip()` (line 150). -/
def titleOf (content : List Char) (m : RMatch) : List Char :=
  pyStrip (sliceList content m.gstart m.mend)

/-- The loop of lines 147-152: each chapter's body runs from its match's
start to the next match's start, the last one to the end of the text. -/
def chapterBodies (content : List Char) : List RMatch → List (List Char × List Char)
  | [] => []
  | [m] => [(titleOf content m, content.drop m.start)]
  | m :: m2 :: rest =>
    (titleOf content m, sliceList content m.start m2.start) ::
      chapterBodies content (m2 :: rest)

/-- The synthetic preface title (line 145). -/
def prefaceTitle : List Char := "前言/序章".toList

/-- The `parts` list built by lines 137-153: empty when no strategy is
accepted; otherwise an optional preface part (when the first match does
not start at position 0) followed by one part per match. -/
def buildParts (content : List Char) : List (List Char × List Char) :=
  match firstAccepted content with
  | none => []
  | some (_, ms) =>
    (match ms.head? with
     | some m0 => if 0 < m0.start then [(prefaceTitle, content.take m0.start)] else []
     | none => []) ++ chapterBodies content ms

/-- Number of synthetic preface parts produced by lines 144-145: one
exactly when the accepted strategy's first match does not start at
position 0. -/
def prefaceCount (ms : List RMatch) : Nat :=
  match ms.head? with
  | some m0 => if 0 < m0.start then 1 else 0
  | none => 0

/-! ## The per-file splitter (lines 129-176) -/

/-- Does `第\d+-` match at the start of `s`?  With backtracking this is
equivalent to: `第`, a non-empty maximal digit run, then `-` (shortening
the greedy run would place a digit where `-` is required). -/
def matchSplitAt (s : List Char) : Bool :=
  match s with
  | '第' :: rest =>
    let run := rest.takeWhile isAsciiDigit
    !run.isEmpty &&
      (match rest.drop run.length with
       | '-' :: _ => true
       | _ => false)
  | _ => false

/-- `re.search(r"第\d+-", name)` as a Boolean (line 130): the pattern
matches somewhere in the name. -/
def hasSplitMark : List Char → Bool
  | [] => false
  | c :: rest => matchSplitAt (c :: rest) || hasSplitMark rest

/-- The skip gate of line 130: a source file is skipped when its name
already carries the split-chapter mark or its size is below 50 KiB. -/
def skipGate (name : List Char) (size : Nat) : Bool :=
  hasSplitMark name || decide (size < 50 * 1024)

/-- Python `str(n)` for a natural number. -/
def natStr (n : Nat) : List Char :=
  if n = 0 then ['0'] else (Nat.digits 10 n).reverse.map Nat.digitChar

/-- `f"{seq_num:04d}"` (line 170): decimal, zero-padded to width 4. -/
def pad4 (n : Nat) : List Char :=
  List.replicate (4 - (natStr n).length) '0' ++ natStr n

/-- `re.sub(r'[\\/*?:"<>|]', "", title[:30]).strip()` (line 171). -/
def sanitizeTitle (t : List Char) : List Char :=
  pyStrip ((t.take 30).filter (fun c =>
    !(c = '\\' || c = '/' || c = '*' || c = '?' || c = ':' ||
      c = '"' || c = '<' || c = '>' || c = '|')))

/-- `f"第{num_str}-{safe_title}.txt"` (line 172). -/
def mkChapterFilename (seq : Nat) (title : List Char) : List Char :=
  '第' :: (pad4 seq ++ ('-' :: (sanitizeTitle title ++ ".txt".toList)))

/-- The write loop of lines 167-174: parts numbered from 1 in order, each
written under its generated filename.  Each element is
(sequence number, filename, body). -/
def writtenFiles (content : List Char) : List (Nat × List Char × List Char) :=
  (buildParts content).enum.map (fun p => (p.1 + 1, mkChapterFilename (p.1 + 1) p.2.1, p.2.2))

/-- Does `suffix` end `hay`? -/
def listEndsWith (sfx hay : List Char) : Bool :=
  listStartsWith sfx.reverse hay.reverse

/-- `Path.stem` for the `*.txt` files handled by the splitter. -/
def pathStem (name : List Char) : List Char :=
  if listEndsWith ".txt".toList name then name.take (name.length - 4) else name

/-- `file_path.stem.replace(" ", "_")` (line 159). -/
def bookDirName (name : List Char) : List Char :=
  (pathStem name).map (fun c => if c = ' ' then '_' else c)

/-- `f"raw_{file_path.name}"` (line 164). -/
def archiveName (name : List Char) : List Char := "raw_".toList ++ name

/-- Outcome of the per-file loop body of `_split_source_files` for one
source file.  `skippedGate`: the `continue` of line 131 (file untouched);
`skippedNoMatch`: the `continue` of line 157 (file untouched, warning
logged); `splitDone book arch files`: the book subdirectory created, the
original moved to the archive under `arch`, and `files` written. -/
inductive SplitAction where
  | skippedGate
  | skippedNoMatch
  | splitDone (book : List Char) (arch : List Char)
      (files : List (Nat × List Char × List Char))
deriving DecidableEq

/-- The loop body of `_split_source_files` (lines 129-176) for one file of
the source directory, given its name, its `stat().st_size` and its decoded
text. -/
def processSourceFile (name : List Char) (size : Nat) (raw : List Char) : SplitAction :=
  if skipGate name size then .skippedGate
  else
    let content := cleanContent raw
    let parts := buildParts content
    if parts.isEmpty then .skippedNoMatch
    else .splitDone (bookDirName name) (archiveName name) (writtenFiles content)

/-! ## `_get_chapter_files` (lines 178-202) -/

/-- `re.match(r"第\d+-", f.name)` (line 182): anchored at the start. -/
def matchesChapterName (name : List Char) : Bool := matchSplitAt name

/-- Numeric value of a digit run. -/
def digitsToNat (ds : List Char) : Nat :=
  ds.foldl (fun acc c => acc * 10 + (c.toNat - '0'.toNat)) 0

/-- `re.search(r"第(\d+)-", name)` (lines 186, 212, 379): scan for a `第`
followed by a non-empty digit run and `-`; capture the run. -/
def searchChapterNum : List Char → Option Nat
  | [] => none
  | c :: rest =>
    if c = '第' then
      let run := rest.takeWhile isAsciiDigit
      if !run.isEmpty &&
          (match rest.drop run.length with
           | '-' :: _ => true
           | _ => false)
      then some (digitsToNat run)
      else searchChapterNum rest
    else searchChapterNum rest

/-- `extract_num` (lines 185-187): the captured number, or the large
sentinel `999999` when the pattern does not match. -/
def extractNum (name : List Char) : Nat :=
  (searchChapterNum name).getD 999999

/-- Sort key order used by `all_chapters.sort(key=extract_num)`. -/
def chapLE (a b : List Char) : Prop := extractNum a ≤ extractNum b

instance : DecidableRel chapLE := fun a b => Nat.decLe _ _

instance : IsTotal (List Char) chapLE := ⟨fun a b => Nat.le_total _ _⟩

instance : IsTrans (List Char) chapLE := ⟨fun _ _ _ => Nat.le_trans⟩

/-- `_get_chapter_files` (lines 178-202) over the list of file names found
under the source directory: filter the split-chapter names, sort by
extracted number (Python's stable sort modelled by stable insertion sort),
keep those with number `≥ start_chapter`, and take at most `count` of them
(the `break` of line 197).  Returns `(target_files, start_chapter,
end_chapter_num)`. -/
def getChapterFiles (names : List (List Char)) (startChapter count : Nat) :
    List (List Char) × Nat × Nat :=
  let allChapters := names.filter matchesChapterName
  let sortedChapters := allChapters.insertionSort chapLE
  let potential := sortedChapters.filter (fun f => decide (startChapter ≤ extractNum f))
  let targets := potential.take count
  (targets, startChapter, (targets.getLast?).elim startChapter extractNum)

/-! ## Merged-block naming and reuse (lines 230-236, 250-253, 309-317,
362-370, 452-460) -/

/-- The default `output_name` of `merge_chapters` (line 232):
`f"合并_第{start_chapter}-{end_chapter}章.txt"`. -/
def mergeChaptersOutputName (s e : Nat) : List Char :=
  "合并_第".toList ++ natStr s ++ "-".toList ++ natStr e ++ "章.txt".toList

/-- The `merged_filename` computed by `get_plan_task` (line 310). -/
def planMergedName (s e : Nat) : List Char :=
  "合并_第".toList ++ natStr s ++ "-".toList ++ natStr e ++ "章.txt".toList

/-- The `merged_filename` computed by `get_refine_task` (line 363). -/
def refineMergedName (s e : Nat) : List Char :=
  "合并_第".toList ++ natStr s ++ "-".toList ++ natStr e ++ "章.txt".toList

/-- The `merged_filename` computed by `execute_refine_with_gemini`
(line 452). -/
def execMergedName (s e : Nat) : List Char :=
  "合并_第".toList ++ natStr s ++ "-".toList ++ natStr e ++ "章.txt".toList

/-- Lines 309-317 of `get_plan_task`: `merge_chapters` (which rewrites the
block file) runs exactly when the expected merged file does not already
exist. -/
def planRegeneratesMerge (mergedFileExists : Bool) : Bool := !mergedFileExists

/-- Lines 362-370 of `get_refine_task`: same existence check. -/
def refineRegeneratesMerge (mergedFileExists : Bool) : Bool := !mergedFileExists

/-- Lines 452-460 of `execute_refine_with_gemini`: same existence check. -/
def execRegeneratesMerge (mergedFileExists : Bool) : Bool := !mergedFileExists

/-- Lines 250-253 of `get_scan_task`: `merge_chapters` is invoked
unconditionally — there is no existence check in this caller. -/
def scanRegeneratesMerge (_mergedFileExists : Bool) : Bool := true

/-! ## Concrete inputs used by witnesses -/

/-- Concatenation of the bodies of a list of parts. -/
def concatBodies (l : List (List Char)) : List Char := l.foldr (· ++ ·) []

/-- A small manuscript with ten classical-numeral chapter headings and a
leading preface, the shape of the example in the specification. -/
def exManuscript : List Char :=
  ("序言文字\n第一章 标题一\n内容一\n第二章 标题二\n内容二\n" ++
   "第三章 标题三\n内容三\n第四章 标题四\n内容四\n第五章 标题五\n内容五\n" ++
   "第六章 标题六\n内容六\n第七章 标题七\n内容七\n第八章 标题八\n内容八\n" ++
   "第九章 标题九\n内容九\n第十章 标题十\n内容十").toList

/-- Split-chapter file names used by the range-resolution witnesses. -/
def exChapterNames : List (List Char) :=
  ["第0003-c.txt".toList, "第0001-a.txt".toList, "notes.txt".toList,
   "第0002-b.txt".toList, "第0010-j.txt".toList]

/-! Theorems: helper lemmas about `takeWhile` and `splitlines`. -/

theorem takeWhile_all {p : Char → Bool} (l : List Char) (hl : ∀ c ∈ l, p c = true) :
    l.takeWhile p = l :=
  List.takeWhile_eq_self_iff.2 hl

theorem length_takeWhile_le {p : Char → Bool} (l : List Char) :
    (l.takeWhile p).length ≤ l.length := by
  induction l with
  | nil => simp [List.takeWhile]
  | cons c cs ih =>
    rw [List.takeWhile_cons]
    split <;> simp <;> omega

theorem takeWhile_eq_of_length {p : Char → Bool} :
    ∀ l : List Char, (l.takeWhile p).length = l.length → l.takeWhile p = l := by
  intro l
  induction l with
  | nil => simp
  | cons c cs ih =>
    rw [List.takeWhile_cons]
    split
    · intro h
      simp only [List.length_cons] at h
      rw [ih (by omega)]
    · intro h
      exfalso
      simp only [List.takeWhile_nil, List.length_nil, List.length_cons] at h
      omega

theorem mem_of_takeWhile {p : Char → Bool} {l : List Char} {c : Char}
    (h : c ∈ l.takeWhile p) : c ∈ l := by
  induction l with
  | nil => simp [List.takeWhile] at h
  | cons a as ih =>
    rw [List.takeWhile_cons] at h
    by_cases hp : p a = true
    · rw [if_pos hp] at h
      rcases List.mem_cons.1 h with h1 | h1
      · simp [h1]
      · exact List.mem_cons_of_mem _ (ih h1)
    · rw [if_neg hp] at h
      simp at h

theorem head_fails_of_drop_takeWhile {p : Char → Bool} :
    ∀ (l : List Char) (c : Char) (t : List Char),
      l.drop (l.takeWhile p).length = c :: t → p c = false := by
  intro l
  induction l with
  | nil => intro c t h; simp at h
  | cons a as ih =>
    intro c t h
    rw [List.takeWhile_cons] at h
    by_cases hp : p a = true
    · rw [if_pos hp] at h
      simp only [List.length_cons, List.drop_succ_cons] at h
      exact ih c t h
    · rw [if_neg hp] at h
      simp only [List.length_nil, List.drop_zero] at h
      cases h
      simpa using hp

theorem splitlinesF_of_drop_nil {fuel : Nat} {s : List Char}
    (h : s.drop ((s.takeWhile (fun c => !isLineBreak c)).length) = []) :
    splitlinesF (fuel + 1) s =
      if s.isEmpty then [] else [s.takeWhile (fun c => !isLineBreak c)] := by
  rw [splitlinesF]
  split
  · rfl
  · rename_i tail heq; rw [h] at heq; cases heq
  · rename_i c tail hne heq; rw [h] at heq; cases heq

theorem splitlinesF_of_drop_crlf {fuel : Nat} {s tail : List Char}
    (h : s.drop ((s.takeWhile (fun c => !isLineBreak c)).length) = '\r' :: '\n' :: tail) :
    splitlinesF (fuel + 1) s =
      s.takeWhile (fun c => !isLineBreak c) :: splitlinesF fuel tail := by
  rw [splitlinesF]
  split
  · rename_i heq; rw [h] at heq; cases heq
  · rename_i tail2 heq
    rw [h] at heq
    cases heq
    rfl
  · rename_i c tail2 hne heq
    rw [h] at heq
    cases heq
    exact (hne tail rfl rfl).elim

theorem splitlinesF_of_drop_cons {fuel : Nat} {s tail : List Char} {c : Char}
    (h : s.drop ((s.takeWhile (fun c => !isLineBreak c)).length) = c :: tail)
    (hne : ∀ t2, c = '\r' → tail = '\n' :: t2 → False) :
    splitlinesF (fuel + 1) s =
      s.takeWhile (fun c => !isLineBreak c) :: splitlinesF fuel tail := by
  rw [splitlinesF]
  split
  · rename_i heq; rw [h] at heq; cases heq
  · rename_i tail2 heq
    rw [h] at heq
    cases heq
    exact (hne tail2 rfl rfl).elim
  · rename_i c2 tail2 hne2 heq
    rw [h] at heq
    cases heq
    rfl

theorem drop_takeWhile_length_lt {p : Char → Bool} {s tail : List Char} {c : Char}
    (h : s.drop ((s.takeWhile p).length) = c :: tail) : tail.length < s.length := by
  have hd := congrArg List.length h
  simp only [List.length_drop, List.length_cons] at hd
  omega

/-- `splitlinesF` does not depend on the fuel once it exceeds the length. -/
theorem splitlinesF_congr :
    ∀ f1 f2 : Nat, ∀ s : List Char, s.length < f1 → s.length < f2 →
      splitlinesF f1 s = splitlinesF f2 s := by
  intro f1
  induction f1 using Nat.strong_induction_on with
  | _ f1 ih =>
    intro f2 s h1 h2
    match f1, f2 with
    | g1 + 1, g2 + 1 =>
      cases hd : s.drop ((s.takeWhile (fun c => !isLineBreak c)).length) with
      | nil => rw [splitlinesF_of_drop_nil hd, splitlinesF_of_drop_nil hd]
      | cons c tail =>
        have hlt : tail.length < s.length := drop_takeWhile_length_lt hd
        by_cases hc : c = '\r'
        · subst hc
          cases tail with
          | nil =>
            rw [splitlinesF_of_drop_cons hd (by intro t2 _ ht; cases ht),
              splitlinesF_of_drop_cons hd (by intro t2 _ ht; cases ht)]
            have e1 : splitlinesF g1 [] = splitlinesF g2 [] := by
              apply ih g1 (by omega) g2 [] <;> simp <;> omega
            rw [e1]
          | cons t0 ts =>
            by_cases ht0 : t0 = '\n'
            · subst ht0
              rw [splitlinesF_of_drop_crlf hd, splitlinesF_of_drop_crlf hd]
              have e1 : splitlinesF g1 ts = splitlinesF g2 ts := by
                apply ih g1 (by omega) g2 ts <;> simp at hlt ⊢ <;> omega
              rw [e1]
            · have hne : ∀ t2, '\r' = '\r' → t0 :: ts = '\n' :: t2 → False := by
                intro t2 _ ht
                injection ht with ha hb
                exact ht0 ha
              rw [splitlinesF_of_drop_cons hd hne, splitlinesF_of_drop_cons hd hne]
              have e1 : splitlinesF g1 (t0 :: ts) = splitlinesF g2 (t0 :: ts) := by
                apply ih g1 (by omega) g2 (t0 :: ts) <;> omega
              rw [e1]
        · have hne : ∀ t2, c = '\r' → tail = '\n' :: t2 → False := by
            intro t2 hcc _
            exact hc hcc
          rw [splitlinesF_of_drop_cons hd hne, splitlinesF_of_drop_cons hd hne]
          have e1 : splitlinesF g1 tail = splitlinesF g2 tail := by
            apply ih g1 (by omega) g2 tail <;> omega
          rw [e1]

theorem splitlines_nil : splitlines [] = [] := by decide

theorem splitlines_of_drop_nil {s : List Char} (hs : s ≠ [])
    (h : s.drop ((s.takeWhile (fun c => !isLineBreak c)).length) = []) :
    splitlines s = [s.takeWhile (fun c => !isLineBreak c)] := by
  show splitlinesF (s.length + 1) s = _
  rw [splitlinesF_of_drop_nil h, if_neg (by simpa [List.isEmpty_iff] using hs)]

theorem splitlines_of_drop_crlf {s tail : List Char}
    (h : s.drop ((s.takeWhile (fun c => !isLineBreak c)).length) = '\r' :: '\n' :: tail) :
    splitlines s = s.takeWhile (fun c => !isLineBreak c) :: splitlines tail := by
  show splitlinesF (s.length + 1) s = _
  rw [splitlinesF_of_drop_crlf h]
  have hlt : tail.length + 1 < s.length := by
    have hd := congrArg List.length h
    simp only [List.length_drop, List.length_cons] at hd
    omega
  rw [splitlinesF_congr s.length (tail.length + 1) tail (by omega) (by omega)]
  rfl

theorem splitlines_of_drop_cons {s tail : List Char} {c : Char}
    (h : s.drop ((s.takeWhile (fun c => !isLineBreak c)).length) = c :: tail)
    (hne : ∀ t2, c = '\r' → tail = '\n' :: t2 → False) :
    splitlines s = s.takeWhile (fun c => !isLineBreak c) :: splitlines tail := by
  show splitlinesF (s.length + 1) s = _
  rw [splitlinesF_of_drop_cons h hne]
  have hlt : tail.length < s.length := drop_takeWhile_length_lt h
  rw [splitlinesF_congr s.length (tail.length + 1) tail (by omega) (by omega)]
  rfl

theorem splitlines_ne_nil {s : List Char} (h : s ≠ []) : splitlines s ≠ [] := by
  cases hd : s.drop ((s.takeWhile (fun c => !isLineBreak c)).length) with
  | nil => rw [splitlines_of_drop_nil h hd]; simp
  | cons c tail =>
    by_cases hc : c = '\r'
    · subst hc
      cases tail with
      | nil => rw [splitlines_of_drop_cons hd (by intro t2 _ ht; cases ht)]; simp
      | cons t0 ts =>
        by_cases ht0 : t0 = '\n'
        · subst ht0; rw [splitlines_of_drop_crlf hd]; simp
        · rw [splitlines_of_drop_cons hd (by
            intro t2 _ ht
            injection ht with ha hb
            exact ht0 ha)]
          simp
    · rw [splitlines_of_drop_cons hd (by intro t2 hcc _; exact hc hcc)]; simp

/-- Case-analysis principle following the recursion of `splitlines`. -/
theorem splitlines_induct (motive : List Char → Prop)
    (case1 : ∀ x : List Char,
      x.drop ((x.takeWhile (fun c => !isLineBreak c)).length) = [] →
      x.isEmpty = true → motive x)
    (case2 : ∀ x : List Char,
      x.drop ((x.takeWhile (fun c => !isLineBreak c)).length) = [] →
      ¬x.isEmpty = true → motive x)
    (case3 : ∀ (x tail : List Char),
      x.drop ((x.takeWhile (fun c => !isLineBreak c)).length) = '\r' :: '\n' :: tail →
      motive tail → motive x)
    (case4 : ∀ (x : List Char) (head : Char) (tail : List Char),
      (∀ t1, head = '\r' → tail = '\n' :: t1 → False) →
      x.drop ((x.takeWhile (fun c => !isLineBreak c)).length) = head :: tail →
      motive tail → motive x) :
    ∀ s, motive s := by
  have key : ∀ n : Nat, ∀ s : List Char, s.length ≤ n → motive s := by
    intro n
    induction n with
    | zero =>
      intro s hs
      have hnil : s = [] := by
        cases s with
        | nil => rfl
        | cons a as => simp at hs
      subst hnil
      exact case1 [] (by simp) (by simp)
    | succ n ihn =>
      intro s hs
      cases hd : s.drop ((s.takeWhile (fun c => !isLineBreak c)).length) with
      | nil =>
        by_cases he : s.isEmpty = true
        · exact case1 s hd he
        · exact case2 s hd he
      | cons c tail =>
        have hlt : tail.length < s.length := drop_takeWhile_length_lt hd
        by_cases hc : c = '\r'
        · subst hc
          cases tail with
          | nil =>
            exact case4 s '\r' [] (by intro t1 _ ht; cases ht) hd
              (ihn [] (by simp))
          | cons t0 ts =>
            by_cases ht0 : t0 = '\n'
            · subst ht0
              refine case3 s ts hd (ihn ts ?_)
              simp only [List.length_cons] at hlt
              omega
            · refine case4 s '\r' (t0 :: ts) (by
                intro t1 _ ht
                injection ht with ha hb
                exact ht0 ha) hd (ihn (t0 :: ts) (by omega))
        · exact case4 s c tail (by intro t1 hcc _; exact hc hcc) hd
            (ihn tail (by omega))
  exact fun s => key s.length s le_rfl

theorem splitlines_single {l : List Char} (hl : ∀ c ∈ l, isLineBreak c = false)
    (hne : l ≠ []) : splitlines l = [l] := by
  have htw : l.takeWhile (fun c => !isLineBreak c) = l :=
    takeWhile_all l (by intro c hc; simp [hl c hc])
  have hd : l.drop ((l.takeWhile (fun c => !isLineBreak c)).length) = [] := by
    rw [htw]; simp
  rw [splitlines_of_drop_nil hne hd, htw]

theorem takeWhile_append_cons_fail {p : Char → Bool} (l : List Char) (x : Char)
    (t : List Char) (hl : ∀ c ∈ l, p c = true) (hx : p x = false) :
    (l ++ x :: t).takeWhile p = l := by
  rw [List.takeWhile_append, takeWhile_all l hl, if_pos rfl, List.takeWhile_cons,
    hx]
  simp

theorem splitlines_append_cons (l t : List Char) (hl : ∀ c ∈ l, isLineBreak c = false) :
    splitlines (l ++ '\n' :: t) = l :: splitlines t := by
  have htw : (l ++ '\n' :: t).takeWhile (fun c => !isLineBreak c) = l :=
    takeWhile_append_cons_fail l '\n' t (by intro c hc; simp [hl c hc]) (by decide)
  have hd : (l ++ '\n' :: t).drop (((l ++ '\n' :: t).takeWhile (fun c => !isLineBreak c)).length) =
      '\n' :: t := by
    rw [htw]; exact List.drop_left l _
  rw [splitlines_of_drop_cons hd (by intro t2 hc; cases hc), htw]

theorem takeWhile_append_drop {p : Char → Bool} :
    ∀ l : List Char, l.takeWhile p ++ l.drop ((l.takeWhile p).length) = l := by
  intro l
  induction l with
  | nil => simp
  | cons c cs ih =>
    rw [List.takeWhile_cons]
    by_cases hp : p c = true
    · rw [if_pos hp]
      simpa using ih
    · rw [if_neg hp]
      simp

theorem getLast?_append_ne (l t : List Char) (h : t ≠ []) :
    (l ++ t).getLast? = t.getLast? := by
  rw [List.getLast?_append, List.getLast?_eq_getLast t h]
  rfl

theorem joinLines_cons_ne (l : List Char) {ls : List (List Char)} (h : ls ≠ []) :
    joinLines (l :: ls) = l ++ '\n' :: joinLines ls := by
  cases ls with
  | nil => exact absurd rfl h
  | cons l2 rest => rfl

theorem mem_splitlines_no_break (s : List Char) :
    ∀ l ∈ splitlines s, ∀ c ∈ l, isLineBreak c = false := by
  induction s using splitlines_induct with
  | case1 x hdrop hempty =>
    intro l hl
    rw [List.isEmpty_iff.1 hempty, splitlines_nil] at hl
    simp at hl
  | case2 x hdrop hempty =>
    intro l hl c hc
    rw [splitlines_of_drop_nil (by simpa [List.isEmpty_iff] using hempty) hdrop] at hl
    simp only [List.mem_singleton] at hl
    subst hl
    simpa using List.mem_takeWhile_imp hc
  | case3 x tail hdrop ih =>
    intro l hl c hc
    rw [splitlines_of_drop_crlf hdrop] at hl
    rcases List.mem_cons.1 hl with h1 | h1
    · subst h1
      simpa using List.mem_takeWhile_imp hc
    · exact ih l h1 c hc
  | case4 x head tail hne hdrop ih =>
    intro l hl c hc
    rw [splitlines_of_drop_cons hdrop (by intro t2 hr ht; exact hne t2 hr ht)] at hl
    rcases List.mem_cons.1 hl with h1 | h1
    · subst h1
      simpa using List.mem_takeWhile_imp hc
    · exact ih l h1 c hc

theorem mem_splitlines_subset (s : List Char) :
    ∀ l ∈ splitlines s, ∀ c ∈ l, c ∈ s := by
  induction s using splitlines_induct with
  | case1 x hdrop hempty =>
    intro l hl
    rw [List.isEmpty_iff.1 hempty, splitlines_nil] at hl
    simp at hl
  | case2 x hdrop hempty =>
    intro l hl c hc
    rw [splitlines_of_drop_nil (by simpa [List.isEmpty_iff] using hempty) hdrop] at hl
    simp only [List.mem_singleton] at hl
    subst hl
    exact mem_of_takeWhile hc
  | case3 x tail hdrop ih =>
    intro l hl c hc
    rw [splitlines_of_drop_crlf hdrop] at hl
    have htail : tail ⊆ x := by
      intro a ha
      have hmem2 : a ∈ x.drop ((x.takeWhile (fun c => !isLineBreak c)).length) := by
        rw [hdrop]
        exact List.mem_cons_of_mem _ (List.mem_cons_of_mem _ ha)
      exact List.drop_subset _ _ hmem2
    rcases List.mem_cons.1 hl with h1 | h1
    · subst h1
      exact mem_of_takeWhile hc
    · exact htail (ih l h1 c hc)
  | case4 x head tail hne hdrop ih =>
    intro l hl c hc
    rw [splitlines_of_drop_cons hdrop (by intro t2 hr ht; exact hne t2 hr ht)] at hl
    have htail : tail ⊆ x := by
      intro a ha
      have hmem2 : a ∈ x.drop ((x.takeWhile (fun c => !isLineBreak c)).length) := by
        rw [hdrop]
        exact List.mem_cons_of_mem _ ha
      exact List.drop_subset _ _ hmem2
    rcases List.mem_cons.1 hl with h1 | h1
    · subst h1
      exact mem_of_takeWhile hc
    · exact htail (ih l h1 c hc)

/-- Rejoining the split lines with `"\n"` recovers the text exactly when
its only line breaks are `"\n"` and it does not end with one. -/
theorem joinLines_splitlines (s : List Char) :
    (∀ c ∈ s, isLineBreak c = true → c = '\n') → s.getLast? ≠ some '\n' →
    joinLines (splitlines s) = s := by
  induction s using splitlines_induct with
  | case1 x hdrop hempty =>
    intro h1 h2
    rw [List.isEmpty_iff.1 hempty, splitlines_nil]
    rfl
  | case2 x hdrop hempty =>
    intro h1 h2
    have hx : x ≠ [] := by simpa [List.isEmpty_iff] using hempty
    have hlen : ((x.takeWhile (fun c => !isLineBreak c)).length) = x.length := by
      have hd := congrArg List.length hdrop
      simp only [List.length_drop, List.length_nil] at hd
      have h3 := length_takeWhile_le (p := fun c => !isLineBreak c) x
      omega
    rw [splitlines_of_drop_nil hx hdrop, takeWhile_eq_of_length x hlen]
    rfl
  | case3 x tail hdrop ih =>
    intro h1 h2
    exfalso
    have hr : '\r' ∈ x := by
      have hmem2 : '\r' ∈ x.drop ((x.takeWhile (fun c => !isLineBreak c)).length) := by
        rw [hdrop]
        exact List.mem_cons_self _ _
      exact List.drop_subset _ _ hmem2
    have := h1 '\r' hr (by decide)
    simp at this
  | case4 x head tail hne hdrop ih =>
    intro h1 h2
    have hfail := head_fails_of_drop_takeWhile x head tail hdrop
    have hbreak : isLineBreak head = true := by simpa using hfail
    have hmem : head ∈ x := by
      have hmem2 : head ∈ x.drop ((x.takeWhile (fun c => !isLineBreak c)).length) := by
        rw [hdrop]
        exact List.mem_cons_self _ _
      exact List.drop_subset _ _ hmem2
    have hhead : head = '\n' := h1 head hmem hbreak
    subst hhead
    have hsx : x.takeWhile (fun c => !isLineBreak c) ++ '\n' :: tail = x := by
      have := takeWhile_append_drop (p := fun c => !isLineBreak c) x
      rw [hdrop] at this
      exact this
    cases htail : tail with
    | nil =>
      exfalso
      apply h2
      rw [← hsx, htail]
      exact List.getLast?_concat _
    | cons t0 ts =>
      rw [splitlines_of_drop_cons hdrop (by intro t2 hr ht; exact hne t2 hr ht)]
      have hsne : splitlines tail ≠ [] := by
        rw [htail]; exact splitlines_ne_nil (by simp)
      rw [joinLines_cons_ne _ hsne]
      have harg1 : ∀ c ∈ tail, isLineBreak c = true → c = '\n' := by
        intro c hc
        refine h1 c ?_
        rw [← hsx]
        exact List.mem_append_right _ (List.mem_cons_of_mem _ hc)
      have harg2 : tail.getLast? ≠ some '\n' := by
        intro hcon
        apply h2
        rw [← hsx, getLast?_append_ne _ _ (by simp)]
        rw [htail] at hcon ⊢
        rw [List.getLast?_cons_cons]
        exact hcon
      rw [ih harg1 harg2, hsx]

/-- Splitting the joined lines recovers them exactly when no line contains
a line break and the last line is not empty. -/
theorem splitlines_joinLines :
    ∀ ls : List (List Char), (∀ l ∈ ls, ∀ c ∈ l, isLineBreak c = false) →
      ls.getLast? ≠ some [] → splitlines (joinLines ls) = ls := by
  intro ls
  induction ls with
  | nil => intro _ _; exact splitlines_nil
  | cons l rest ih =>
    intro h1 h2
    cases rest with
    | nil =>
      have hl : l ≠ [] := by simpa using h2
      exact splitlines_single (h1 l (by simp)) hl
    | cons l2 rs =>
      rw [joinLines_cons_ne _ (by simp),
        splitlines_append_cons _ _ (h1 l (by simp)),
        ih (by intro a ha; exact h1 a (List.mem_cons_of_mem _ ha))
          (by simpa using h2)]

theorem mem_joinLines {c : Char} :
    ∀ {ls : List (List Char)}, c ∈ joinLines ls → c = '\n' ∨ ∃ l ∈ ls, c ∈ l := by
  intro ls
  induction ls with
  | nil => intro h; simp [joinLines] at h
  | cons l rest ih =>
    intro h
    cases rest with
    | nil =>
      right
      exact ⟨l, by simp, h⟩
    | cons l2 rs =>
      rw [joinLines_cons_ne _ (by simp)] at h
      rcases List.mem_append.1 h with h1 | h1
      · right
        exact ⟨l, by simp, h1⟩
      · rcases List.mem_cons.1 h1 with h2 | h2
        · left; exact h2
        · rcases ih h2 with h3 | ⟨l3, hl3, hc3⟩
          · left; exact h3
          · right; exact ⟨l3, List.mem_cons_of_mem _ hl3, hc3⟩

theorem getLast?_append_cons_ne (l : List Char) (a : Char) {t : List Char}
    (h : t ≠ []) : (l ++ a :: t).getLast? = t.getLast? := by
  rw [getLast?_append_ne l (a :: t) (by simp)]
  cases t with
  | nil => exact absurd rfl h
  | cons b bs => rw [List.getLast?_cons_cons]

/-- Appending a final `"\n"` to a text that does not end in a line break
does not change its split lines. -/
theorem splitlines_append_newline (s : List Char) :
    s ≠ [] → (∀ c, s.getLast? = some c → isLineBreak c = false) →
    splitlines (s ++ ['\n']) = splitlines s := by
  induction s using splitlines_induct with
  | case1 x hdrop hempty =>
    intro hx _
    exact absurd (List.isEmpty_iff.1 hempty) hx
  | case2 x hdrop hempty =>
    intro hx _
    have hlen : ((x.takeWhile (fun c => !isLineBreak c)).length) = x.length := by
      have hd := congrArg List.length hdrop
      simp only [List.length_drop, List.length_nil] at hd
      have h3 := length_takeWhile_le (p := fun c => !isLineBreak c) x
      omega
    have htws : x.takeWhile (fun c => !isLineBreak c) = x :=
      takeWhile_eq_of_length x hlen
    have hnb : ∀ c ∈ x, isLineBreak c = false := by
      intro c hc
      rw [← htws] at hc
      simpa using List.mem_takeWhile_imp hc
    have hL : splitlines (x ++ '\n' :: []) = x :: splitlines [] :=
      splitlines_append_cons x [] hnb
    rw [hL, splitlines_nil, splitlines_of_drop_nil hx hdrop, htws]
  | case3 x tail hdrop ih =>
    intro hx hlast
    have hsx : x.takeWhile (fun c => !isLineBreak c) ++ '\r' :: '\n' :: tail = x := by
      have := takeWhile_append_drop (p := fun c => !isLineBreak c) x
      rw [hdrop] at this
      exact this
    have hlinesat : ∀ c ∈ x.takeWhile (fun c => !isLineBreak c),
        (fun c => !isLineBreak c) c = true := by
      intro c hc
      exact List.mem_takeWhile_imp (p := fun c => !isLineBreak c) hc
    cases htail : tail with
    | nil =>
      exfalso
      have hgl : x.getLast? = some '\n' := by
        rw [← hsx, htail, getLast?_append_cons_ne _ '\r' (by simp)]
        rfl
      exact absurd (hlast '\n' hgl) (by decide)
    | cons t0 ts =>
      have htw2 : (x ++ ['\n']).takeWhile (fun c => !isLineBreak c) =
          x.takeWhile (fun c => !isLineBreak c) := by
        conv in x ++ ['\n'] => rw [← hsx]
        rw [List.append_assoc]
        exact takeWhile_append_cons_fail _ '\r' _ hlinesat (by decide)
      have hdrop2 : (x ++ ['\n']).drop
          (((x ++ ['\n']).takeWhile (fun c => !isLineBreak c)).length) =
          '\r' :: '\n' :: (tail ++ ['\n']) := by
        rw [htw2]
        conv in x ++ ['\n'] => rw [← hsx]
        rw [List.append_assoc]
        rw [List.drop_left]
        simp
      rw [splitlines_of_drop_crlf hdrop2, htw2, splitlines_of_drop_crlf hdrop]
      have harg : tail.getLast? = x.getLast? := by
        rw [← hsx, getLast?_append_cons_ne _ '\r' (by simp), htail,
          List.getLast?_cons_cons]
      rw [ih (by rw [htail]; simp) (by rw [harg]; exact hlast)]
  | case4 x head tail hne hdrop ih =>
    intro hx hlast
    have hsx : x.takeWhile (fun c => !isLineBreak c) ++ head :: tail = x := by
      have := takeWhile_append_drop (p := fun c => !isLineBreak c) x
      rw [hdrop] at this
      exact this
    have hfail := head_fails_of_drop_takeWhile x head tail hdrop
    have hlinesat : ∀ c ∈ x.takeWhile (fun c => !isLineBreak c),
        (fun c => !isLineBreak c) c = true := by
      intro c hc
      exact List.mem_takeWhile_imp (p := fun c => !isLineBreak c) hc
    cases htail : tail with
    | nil =>
      exfalso
      have hh : x.getLast? = some head := by
        rw [← hsx, htail]
        exact List.getLast?_concat _
      have := hlast head hh
      rw [this] at hfail
      simp at hfail
    | cons t0 ts =>
      have htw2 : (x ++ ['\n']).takeWhile (fun c => !isLineBreak c) =
          x.takeWhile (fun c => !isLineBreak c) := by
        conv in x ++ ['\n'] => rw [← hsx]
        rw [List.append_assoc]
        exact takeWhile_append_cons_fail _ head _ hlinesat hfail
      have hdrop2 : (x ++ ['\n']).drop
          (((x ++ ['\n']).takeWhile (fun c => !isLineBreak c)).length) =
          head :: (tail ++ ['\n']) := by
        rw [htw2]
        conv in x ++ ['\n'] => rw [← hsx]
        rw [List.append_assoc]
        rw [List.drop_left]
        simp
      have hne2 : ∀ t2, head = '\r' → tail ++ ['\n'] = '\n' :: t2 → False := by
        intro t2 hr ht
        rw [htail] at ht
        simp only [List.cons_append] at ht
        injection ht with h1 h2
        exact hne ts hr (by rw [htail, h1])
      rw [splitlines_of_drop_cons hdrop2 hne2, htw2,
        splitlines_of_drop_cons hdrop (fun t2 hr ht => hne t2 hr ht)]
      have harg : tail.getLast? = x.getLast? := by
        rw [← hsx, getLast?_append_cons_ne _ head (by rw [htail]; simp)]
      rw [ih (by rw [htail]; simp) (by rw [harg]; exact hlast)]

/-! ## `clean_content` lemmas -/

/-- When the input has no stripped control character, the final filter of
`clean_content` is the identity. -/
theorem cleanContent_eq_join (s : List Char)
    (hctrl : ∀ c ∈ s, isStrippedControl c = false) :
    cleanContent s = joinLines ((splitlines s).filter keepLine) := by
  show (joinLines ((splitlines s).filter keepLine)).filter
      (fun c => !isStrippedControl c) = _
  apply List.filter_eq_self.2
  intro c hc
  rcases mem_joinLines hc with h | ⟨l, hl, hcl⟩
  · subst h; decide
  · have hcs : c ∈ s :=
      mem_splitlines_subset s l (List.mem_of_mem_filter hl) c hcl
    simp [hctrl c hcs]

/-- Every character of the sanitizer output is a `"\n"` separator or a
character of some kept line of the input. -/
theorem mem_cleanContent {s : List Char} {c : Char} (hc : c ∈ cleanContent s) :
    c = '\n' ∨ ∃ l ∈ (splitlines s).filter keepLine, c ∈ l := by
  have hj : c ∈ joinLines ((splitlines s).filter keepLine) :=
    List.mem_of_mem_filter hc
  exact mem_joinLines hj

/-- C5 counterexample input: the text `"a\n"`. -/
theorem c5_counterexample :
    (∀ l ∈ splitlines ("a\n".toList), keepLine l = true) ∧
    (∀ c ∈ ("a\n".toList), isStrippedControl c = false) ∧
    cleanContent ("a\n".toList) ≠ "a\n".toList := by decide

/-- C5 (amended): the sanitizer returns the text unchanged when no line
contains an ad marker, no stripped control character occurs, the only line
terminators are `"\n"`, and the text does not end with a line terminator. -/
theorem c5_clean_noop_amended (s : List Char)
    (hnl : ∀ c ∈ s, isLineBreak c = true → c = '\n')
    (hlast : s.getLast? ≠ some '\n')
    (had : ∀ l ∈ splitlines s, keepLine l = true)
    (hctrl : ∀ c ∈ s, isStrippedControl c = false) :
    cleanContent s = s := by
  rw [cleanContent_eq_join s hctrl, List.filter_eq_self.2 had,
    joinLines_splitlines s hnl hlast]

/-- Witness for the amended C5 at the clean text `"abc\ndef"`. -/
theorem c5_clean_noop_witness : cleanContent ("abc\ndef".toList) = "abc\ndef".toList :=
  c5_clean_noop_amended ("abc\ndef".toList) (by decide) (by decide) (by decide)
    (by decide)

/-- C6 counterexample: `clean_content` is not idempotent on `"a\n\n"`
(the empty last line is dropped by the second pass). -/
theorem c6_counterexample :
    cleanContent (cleanContent ("a\n\n".toList)) ≠ cleanContent ("a\n\n".toList) := by
  decide

/-- C6 (amended): `clean_content` is idempotent on every input without
stripped control characters whose last kept line is non-empty.  (Two
failure modes force the hypotheses: a trailing empty line is dropped by the
second pass, and removing a control character can create an ad keyword
that the second pass then removes.) -/
theorem c6_idempotent_amended (s : List Char)
    (hctrl : ∀ c ∈ s, isStrippedControl c = false)
    (hlast : ((splitlines s).filter keepLine).getLast? ≠ some []) :
    cleanContent (cleanContent s) = cleanContent s := by
  have h1 : cleanContent s = joinLines ((splitlines s).filter keepLine) :=
    cleanContent_eq_join s hctrl
  have hctrl2 : ∀ c ∈ joinLines ((splitlines s).filter keepLine),
      isStrippedControl c = false := by
    intro c hc
    rcases mem_joinLines hc with h | ⟨l, hl, hcl⟩
    · subst h; decide
    · exact hctrl c (mem_splitlines_subset s l (List.mem_of_mem_filter hl) c hcl)
  have hlines : ∀ l ∈ (splitlines s).filter keepLine, ∀ c ∈ l,
      isLineBreak c = false :=
    fun l hl => mem_splitlines_no_break s l (List.mem_of_mem_filter hl)
  have h2 : splitlines (joinLines ((splitlines s).filter keepLine)) =
      (splitlines s).filter keepLine :=
    splitlines_joinLines _ hlines hlast
  have h3 : ∀ l ∈ (splitlines s).filter keepLine, keepLine l = true :=
    fun l hl => (List.mem_filter.1 hl).2
  rw [h1, cleanContent_eq_join _ hctrl2, h2, List.filter_eq_self.2 h3]

/-- Witness for the amended C6 at `"abc\nFanqie-novel-Downloader\ndef"`
(an ad line that the first pass removes). -/
theorem c6_idempotent_witness :
    cleanContent (cleanContent ("abc\nFanqie-novel-Downloader\ndef".toList)) =
      cleanContent ("abc\nFanqie-novel-Downloader\ndef".toList) :=
  c6_idempotent_amended ("abc\nFanqie-novel-Downloader\ndef".toList) (by decide)
    (by decide)

/-- C10 counterexample: on `"xy\n\n"` the sanitizer output is `"xy\n"`,
which ends with a line terminator. -/
theorem c10_counterexample :
    cleanContent ("xy\n\n".toList) = "xy\n".toList ∧
    (cleanContent ("xy\n\n".toList)).getLast? = some '\n' := by decide

/-- C10 (amended): the sanitizer output contains no carriage return — every
line-break character it contains is `"\n"` — and a final newline appended
to a text not already ending in a line break does not change the output;
but when the input ends with an empty line the output can still end with
`"\n"`. -/
theorem c10_line_normalization_amended :
    (∀ s : List Char, '\r' ∉ cleanContent s) ∧
    (∀ s : List Char, (∀ c, s.getLast? = some c → isLineBreak c = false) →
      cleanContent (s ++ ['\n']) = cleanContent s) := by
  constructor
  · intro s hr
    rcases mem_cleanContent hr with h | ⟨l, hl, hcl⟩
    · cases h
    · have := mem_splitlines_no_break s l (List.mem_of_mem_filter hl) '\r' hcl
      simp [isLineBreak] at this
  · intro s hlast
    cases hs : s with
    | nil => decide
    | cons c0 cs =>
      have hne : s ≠ [] := by rw [hs]; simp
      rw [← hs]
      show (joinLines ((splitlines (s ++ ['\n'])).filter keepLine)).filter _ =
        (joinLines ((splitlines s).filter keepLine)).filter _
      rw [splitlines_append_newline s hne hlast]

/-- Witness for the amended C10: no carriage return in a sanitized CRLF
text, and a trailing newline is dropped. -/
theorem c10_line_normalization_witness :
    '\r' ∉ cleanContent ("p\r\nq".toList) ∧
    cleanContent ("pq".toList ++ ['\n']) = cleanContent ("pq".toList) :=
  ⟨c10_line_normalization_amended.1 ("p\r\nq".toList),
   c10_line_normalization_amended.2 ("pq".toList) (by decide)⟩

/-! ## `finditer` lemmas -/

theorem groupLenWith_bounds {numClass markerClass : Char → Bool} {s : List Char}
    {L : Nat} (h : groupLenWith numClass markerClass s = some L) :
    3 ≤ L ∧ L ≤ s.length := by
  unfold groupLenWith at h
  split at h
  · rename_i rest
    split at h
    · cases h
    · rename_i hrun
      split at h
      · rename_i m tail hdrop
        split at h
        · rename_i hm
          injection h with hL
          have h1 : (rest.takeWhile numClass).length ≤ rest.length :=
            length_takeWhile_le rest
          have h2 := congrArg List.length hdrop
          simp only [List.length_drop, List.length_cons] at h2
          have h3 : lineRestLen tail ≤ tail.length := length_takeWhile_le tail
          simp only [List.length_cons]
          omega
        · cases h
      · cases h
  · cases h

theorem groupLen_bounds {st : Strat} {s : List Char} {L : Nat}
    (h : groupLen st s = some L) : 3 ≤ L ∧ L ≤ s.length := by
  cases st with
  | classical => exact groupLenWith_bounds h
  | arabic => exact groupLenWith_bounds h
  | loose =>
    have hdef : groupLen Strat.loose s =
        (groupLenWith isClassicalNum isLooseMarker s).orElse
          (fun _ => groupLenWith isAsciiDigit isLooseMarker s) := rfl
    rw [hdef] at h
    cases ha : groupLenWith isClassicalNum isLooseMarker s with
    | some L2 =>
      rw [ha] at h
      simp only [Option.orElse] at h
      injection h with hL
      subst hL
      exact groupLenWith_bounds ha
    | none =>
      rw [ha] at h
      simp only [Option.orElse] at h
      exact groupLenWith_bounds h

theorem matchAt_spec {st : Strat} {s : List Char} {p : Nat} {m : RMatch}
    (h : matchAt st s p = some m) :
    m.start = p ∧ p < m.mend ∧ m.mend ≤ s.length := by
  unfold matchAt at h
  by_cases hp : p = 0
  · rw [if_pos hp] at h
    subst hp
    split at h
    · rename_i L hg
      injection h with hm
      subst hm
      obtain ⟨h1, h2⟩ := groupLen_bounds hg
      refine ⟨rfl, ?_, ?_⟩
      · show 0 < L
        omega
      · show L ≤ s.length
        exact h2
    · split at h
      · rename_i c rest hnone
        split at h
        · cases hg : groupLen st rest with
          | none => rw [hg] at h; cases h
          | some L =>
            rw [hg] at h
            injection h with hm
            subst hm
            obtain ⟨h1, h2⟩ := groupLen_bounds hg
            refine ⟨rfl, ?_, ?_⟩
            · show 0 < 1 + L
              omega
            · show 1 + L ≤ (c :: rest).length
              simp only [List.length_cons]
              omega
        · cases h
      · cases h
  · rw [if_neg hp] at h
    split at h
    · rename_i c rest hdrop
      split at h
      · cases hg : groupLen st rest with
        | none => rw [hg] at h; cases h
        | some L =>
          rw [hg] at h
          injection h with hm
          subst hm
          obtain ⟨h1, h2⟩ := groupLen_bounds hg
          have h3 := congrArg List.length hdrop
          simp only [List.length_drop, List.length_cons] at h3
          refine ⟨rfl, ?_, ?_⟩
          · show p < p + 1 + L
            omega
          · show p + 1 + L ≤ s.length
            omega
      · cases h
    · cases h

theorem finditerAux_sound {st : Strat} {s : List Char} :
    ∀ (fuel p : Nat), ∀ m ∈ finditerAux st s p fuel,
      p ≤ m.start ∧ m.start < m.mend ∧ m.mend ≤ s.length := by
  intro fuel
  induction fuel with
  | zero => intro p m h; simp [finditerAux] at h
  | succ f ih =>
    intro p m h
    rw [finditerAux] at h
    split at h
    · simp at h
    · split at h
      · rename_i m0 hm0
        rcases List.mem_cons.1 h with h1 | h1
        · subst h1
          obtain ⟨h1, h2, h3⟩ := matchAt_spec hm0
          omega
        · obtain ⟨h1, h2, h3⟩ := ih m0.mend m h1
          obtain ⟨h4, h5, h6⟩ := matchAt_spec hm0
          omega
      · obtain ⟨h1, h2, h3⟩ := ih (p + 1) m h
        omega

theorem finditerAux_chain {st : Strat} {s : List Char} :
    ∀ (fuel p : Nat),
      List.Chain' (fun a b => a.mend ≤ b.start) (finditerAux st s p fuel) := by
  intro fuel
  induction fuel with
  | zero => intro p; simp [finditerAux]
  | succ f ih =>
    intro p
    rw [finditerAux]
    split
    · simp
    · split
      · rename_i m0 hm0
        rw [List.chain'_cons']
        refine ⟨?_, ih m0.mend⟩
        intro y hy
        exact (finditerAux_sound f m0.mend y (List.mem_of_mem_head? hy)).1
      · exact ih (p + 1)

theorem finditer_sound {st : Strat} {s : List Char} :
    ∀ m ∈ finditer st s, m.start < m.mend ∧ m.mend ≤ s.length := by
  intro m h
  obtain ⟨_, h2, h3⟩ := finditerAux_sound (s.length + 2) 0 m h
  exact ⟨h2, h3⟩

theorem finditer_chain {st : Strat} {s : List Char} :
    List.Chain' (fun a b => a.mend ≤ b.start) (finditer st s) :=
  finditerAux_chain (s.length + 2) 0

/-! ## Strategy-selection lemmas -/

/-- Characterisation of the strategy loop: an accepted pair is the first
strategy, in list order, whose match count exceeds 5, with its matches. -/
theorem firstAccepted_spec {content : List Char} {i : Nat} {ms : List RMatch}
    (h : firstAccepted content = some (i, ms)) :
    i < 3 ∧ ms = finditer (stratAt i) content ∧ 5 < ms.length ∧
    ∀ j, j < i → (finditer (stratAt j) content).length ≤ 5 := by
  unfold firstAccepted at h
  split_ifs at h with h0 h1 h2
  · injection h with hpair
    injection hpair with hi hms
    subst hi; subst hms
    exact ⟨by omega, rfl, h0, by intro j hj; omega⟩
  · injection h with hpair
    injection hpair with hi hms
    subst hi; subst hms
    refine ⟨by omega, rfl, h1, ?_⟩
    intro j hj
    have hj0 : j = 0 := by omega
    subst hj0
    simpa [stratAt] using Nat.le_of_not_lt h0
  · injection h with hpair
    injection hpair with hi hms
    subst hi; subst hms
    refine ⟨by omega, rfl, h2, ?_⟩
    intro j hj
    interval_cases j
    · simpa [stratAt] using Nat.le_of_not_lt h0
    · simpa [stratAt] using Nat.le_of_not_lt h1

theorem firstAccepted_none {content : List Char}
    (h : ∀ j, j < 3 → (finditer (stratAt j) content).length ≤ 5) :
    firstAccepted content = none := by
  have h0 := h 0 (by omega)
  have h1 := h 1 (by omega)
  have h2 := h 2 (by omega)
  simp only [stratAt] at h0 h1 h2
  unfold firstAccepted
  rw [if_neg (by omega), if_neg (by omega), if_neg (by omega)]

/-! ## Part-construction lemmas -/

theorem chapterBodies_length (content : List Char) :
    ∀ ms : List RMatch, (chapterBodies content ms).length = ms.length := by
  intro ms
  induction ms with
  | nil => rfl
  | cons m rest ih =>
    cases rest with
    | nil => rfl
    | cons m2 rs =>
      show ((chapterBodies content (m2 :: rs)).length + 1) = _
      rw [ih]
      rfl

theorem sliceList_length (l : List Char) (a b : Nat) :
    (sliceList l a b).length = min b l.length - a := by
  simp [sliceList, List.length_take]

theorem chapterBodies_nonempty (content : List Char) :
    ∀ ms : List RMatch,
      (∀ m ∈ ms, m.start < m.mend ∧ m.mend ≤ content.length) →
      List.Chain' (fun a b => a.mend ≤ b.start) ms →
      ∀ part ∈ chapterBodies content ms, part.2 ≠ [] := by
  intro ms
  induction ms with
  | nil => intro _ _ part hp; simp [chapterBodies] at hp
  | cons m rest ih =>
    intro hb hc part hp
    cases rest with
    | nil =>
      simp only [chapterBodies, List.mem_singleton] at hp
      subst hp
      apply List.ne_nil_of_length_pos
      obtain ⟨h1, h2⟩ := hb m (by simp)
      simp only [List.length_drop]
      omega
    | cons m2 rs =>
      rw [show chapterBodies content (m :: m2 :: rs) =
        (titleOf content m, sliceList content m.start m2.start) ::
          chapterBodies content (m2 :: rs) from rfl] at hp
      rcases List.mem_cons.1 hp with h1 | h1
      · subst h1
        apply List.ne_nil_of_length_pos
        rw [sliceList_length]
        obtain ⟨hm1, hm2⟩ := hb m (by simp)
        obtain ⟨hn1, hn2⟩ := hb m2 (by simp)
        have hcc : m.mend ≤ m2.start := (List.chain'_cons.1 hc).1
        omega
      · exact ih (by intro a ha; exact hb a (List.mem_cons_of_mem _ ha))
          ((List.chain'_cons.1 hc).2) part h1

theorem sliceList_append_drop (l : List Char) (a b : Nat) (hab : a ≤ b) :
    sliceList l a b ++ l.drop b = l.drop a := by
  by_cases hb : b ≤ l.length
  · have ha2 : a ≤ (l.take b).length := by
      simp only [List.length_take]
      omega
    conv_rhs => rw [← List.take_append_drop b l]
    rw [List.drop_append_of_le_length ha2]
    rfl
  · push_neg at hb
    have h1 : sliceList l a b = l.drop a := by
      unfold sliceList
      rw [List.take_of_length_le (Nat.le_of_lt hb)]
    have h2 : l.drop b = [] := List.drop_eq_nil_of_le (Nat.le_of_lt hb)
    rw [h1, h2, List.append_nil]

theorem concatBodies_cons (x : List Char) (l : List (List Char)) :
    concatBodies (x :: l) = x ++ concatBodies l := rfl

theorem chapterBodies_join (content : List Char) :
    ∀ (rest : List RMatch) (m0 : RMatch),
      (∀ m ∈ m0 :: rest, m.start < m.mend ∧ m.mend ≤ content.length) →
      List.Chain' (fun a b => a.mend ≤ b.start) (m0 :: rest) →
      concatBodies ((chapterBodies content (m0 :: rest)).map Prod.snd) =
        content.drop m0.start := by
  intro rest
  induction rest with
  | nil =>
    intro m0 _ _
    simp [chapterBodies, concatBodies]
  | cons m2 rs ih =>
    intro m0 hb hc
    rw [show chapterBodies content (m0 :: m2 :: rs) =
      (titleOf content m0, sliceList content m0.start m2.start) ::
        chapterBodies content (m2 :: rs) from rfl]
    rw [List.map_cons, concatBodies_cons]
    rw [ih m2 (by intro a ha; exact hb a (List.mem_cons_of_mem _ ha))
      ((List.chain'_cons.1 hc).2)]
    apply sliceList_append_drop
    obtain ⟨h1, _⟩ := hb m0 (by simp)
    have h2 : m0.mend ≤ m2.start := (List.chain'_cons.1 hc).1
    omega

theorem mem_enumFrom_snd {α : Type} :
    ∀ (l : List α) (n : Nat) (p : Nat × α), p ∈ l.enumFrom n → p.2 ∈ l := by
  intro l
  induction l with
  | nil => intro n p h; simp at h
  | cons a as ih =>
    intro n p h
    rcases List.mem_cons.1 h with h1 | h1
    · subst h1; simp
    · exact List.mem_cons_of_mem _ (ih (n + 1) p h1)

theorem enum_map_fst_succ {α : Type} (l : List α) :
    l.enum.map (fun p => p.1 + 1) = List.range' 1 l.length := by
  have h1 : l.enum.map (fun p => p.1 + 1) =
      (l.enum.map Prod.fst).map (fun n => n + 1) := by
    rw [List.map_map]
    rfl
  rw [h1, List.enum_map_fst, List.range'_eq_map_range]
  apply List.map_congr_left
  intro a _
  omega

/-! ## `buildParts` lemmas -/

theorem buildParts_of_accepted {content : List Char} {i : Nat} {ms : List RMatch}
    (hacc : firstAccepted content = some (i, ms)) :
    buildParts content =
      (match ms.head? with
       | some m0 => if 0 < m0.start then [(prefaceTitle, content.take m0.start)] else []
       | none => []) ++ chapterBodies content ms := by
  rw [buildParts, hacc]

theorem buildParts_length {content : List Char} {i : Nat} {ms : List RMatch}
    (hacc : firstAccepted content = some (i, ms)) :
    (buildParts content).length = ms.length + prefaceCount ms := by
  rw [buildParts_of_accepted hacc, List.length_append, chapterBodies_length,
    prefaceCount]
  cases ms.head? with
  | none => simp
  | some m0 =>
    by_cases h0 : 0 < m0.start
    · simp [h0]
      omega
    · simp [h0]

theorem buildParts_nonempty {content : List Char} {i : Nat} {ms : List RMatch}
    (hacc : firstAccepted content = some (i, ms)) :
    ∀ part ∈ buildParts content, part.2 ≠ [] := by
  obtain ⟨hi, hms, hlen, _⟩ := firstAccepted_spec hacc
  intro part hp
  rw [buildParts_of_accepted hacc] at hp
  have hbounds : ∀ m ∈ ms, m.start < m.mend ∧ m.mend ≤ content.length := by
    intro m hm
    rw [hms] at hm
    exact finditer_sound m hm
  have hchain : List.Chain' (fun a b => a.mend ≤ b.start) ms := by
    rw [hms]
    exact finditer_chain
  rcases List.mem_append.1 hp with h1 | h1
  · cases hh : ms.head? with
    | none => simp only [hh] at h1; simp at h1
    | some m0 =>
      simp only [hh] at h1
      by_cases h0 : 0 < m0.start
      · rw [if_pos h0] at h1
        simp only [List.mem_singleton] at h1
        subst h1
        apply List.ne_nil_of_length_pos
        have hm0 : m0 ∈ ms := List.mem_of_mem_head? (by rw [hh]; rfl)
        obtain ⟨hb1, hb2⟩ := hbounds m0 hm0
        simp only [List.length_take]
        omega
      · rw [if_neg h0] at h1
        simp at h1
  · exact chapterBodies_nonempty content ms hbounds hchain part h1

/-! ## `processSourceFile` lemmas -/

theorem processSourceFile_not_gated {name : List Char} {size : Nat}
    {raw : List Char} (hgate : skipGate name size = false) :
    processSourceFile name size raw =
      if (buildParts (cleanContent raw)).isEmpty then SplitAction.skippedNoMatch
      else SplitAction.splitDone (bookDirName name) (archiveName name)
        (writtenFiles (cleanContent raw)) := by
  simp [processSourceFile, hgate]

/-! ## Claim theorems for the segmenter -/

/-- C1: for every manuscript content the segmenter tries the three regex
strategies in the fixed order (classical numerals, Arabic numerals, loose
markers) and accepts the first whose match count is strictly greater than
5: an accepted index `i` carries exactly the matches of strategy `i`, its
count exceeds 5, and every earlier strategy's count is at most 5 — so no
later strategy is consulted once one is accepted. -/
theorem c1_strategy_order (content : List Char) (i : Nat) (ms : List RMatch)
    (h : firstAccepted content = some (i, ms)) :
    i < 3 ∧ ms = finditer (stratAt i) content ∧ 5 < ms.length ∧
    ∀ j, j < i → (finditer (stratAt j) content).length ≤ 5 :=
  firstAccepted_spec h

/-- Witness for C1 on the ten-chapter classical-numeral manuscript: the
classical strategy is accepted with more than 5 matches even though the
later loose strategy would also have exceeded the threshold. -/
theorem c1_strategy_order_witness :
    firstAccepted exManuscript = some (0, finditer Strat.classical exManuscript) ∧
    5 < (finditer (stratAt 2) exManuscript).length ∧
    5 < (finditer (stratAt 0) exManuscript).length ∧
    (∀ j, j < 0 → (finditer (stratAt j) exManuscript).length ≤ 5) := by
  refine ⟨by decide, by decide, ?_, ?_⟩
  · exact (c1_strategy_order exManuscript 0
      (finditer Strat.classical exManuscript) (by decide)).2.2.1
  · exact (c1_strategy_order exManuscript 0
      (finditer Strat.classical exManuscript) (by decide)).2.2.2

/-- C2: for a manuscript passing the size and name gates whose cleaned
content is accepted by some strategy, the splitter produces exactly one
part per match plus one preface part exactly when the first match does not
start at position 0; the written files carry sequence numbers `1, 2, …`
with no gaps, and every body is non-empty. -/
theorem c2_split_structure (name : List Char) (size : Nat) (raw : List Char)
    (hgate : skipGate name size = false) (i : Nat) (ms : List RMatch)
    (hacc : firstAccepted (cleanContent raw) = some (i, ms)) :
    processSourceFile name size raw =
      SplitAction.splitDone (bookDirName name) (archiveName name)
        (writtenFiles (cleanContent raw)) ∧
    (writtenFiles (cleanContent raw)).length = ms.length + prefaceCount ms ∧
    (writtenFiles (cleanContent raw)).map Prod.fst =
      List.range' 1 (ms.length + prefaceCount ms) ∧
    ∀ f ∈ writtenFiles (cleanContent raw), f.2.2 ≠ [] := by
  have hlen5 := (firstAccepted_spec hacc).2.2.1
  have hbp : (buildParts (cleanContent raw)).length = ms.length + prefaceCount ms :=
    buildParts_length hacc
  have hwf_len : (writtenFiles (cleanContent raw)).length =
      (buildParts (cleanContent raw)).length := by
    unfold writtenFiles
    rw [List.length_map, List.enum_length]
  refine ⟨?_, ?_, ?_, ?_⟩
  · rw [processSourceFile_not_gated hgate, if_neg ?_]
    have hne : buildParts (cleanContent raw) ≠ [] := by
      apply List.ne_nil_of_length_pos
      rw [hbp]
      omega
    simp [List.isEmpty_iff, hne]
  · rw [hwf_len, hbp]
  · unfold writtenFiles
    have hmm : ((buildParts (cleanContent raw)).enum.map
        (fun p => (p.1 + 1, mkChapterFilename (p.1 + 1) p.2.1, p.2.2))).map
          Prod.fst =
        (buildParts (cleanContent raw)).enum.map (fun p => p.1 + 1) := by
      rw [List.map_map]
      rfl
    rw [hmm, enum_map_fst_succ, hbp]
  · intro f hf
    unfold writtenFiles at hf
    rcases List.mem_map.1 hf with ⟨q, hq, hfq⟩
    subst hfq
    exact buildParts_nonempty hacc q.2 (mem_enumFrom_snd _ 0 q hq)

/-- Witness for C2 on the ten-chapter manuscript with a preface: eleven
files, numbered 1 to 11, all non-empty. -/
theorem c2_split_structure_witness :
    processSourceFile ("小说 三.txt".toList) 60000 exManuscript =
      SplitAction.splitDone (bookDirName ("小说 三.txt".toList))
        (archiveName ("小说 三.txt".toList))
        (writtenFiles (cleanContent exManuscript)) ∧
    (writtenFiles (cleanContent exManuscript)).length =
      (finditer Strat.classical (cleanContent exManuscript)).length +
        prefaceCount (finditer Strat.classical (cleanContent exManuscript)) ∧
    (writtenFiles (cleanContent exManuscript)).map Prod.fst =
      List.range' 1 ((finditer Strat.classical (cleanContent exManuscript)).length +
        prefaceCount (finditer Strat.classical (cleanContent exManuscript))) ∧
    ∀ f ∈ writtenFiles (cleanContent exManuscript), f.2.2 ≠ [] :=
  c2_split_structure ("小说 三.txt".toList) 60000 exManuscript (by decide) 0
    (finditer Strat.classical (cleanContent exManuscript)) (by decide)

/-- C8: when no strategy yields more than 5 matches on a gated-through
manuscript, the splitter's outcome is the no-match skip: the file is left
untouched — no archiving and no chapter files or book directory. -/
theorem c8_no_match_untouched (name : List Char) (size : Nat) (raw : List Char)
    (hgate : skipGate name size = false)
    (hno : ∀ j, j < 3 → (finditer (stratAt j) (cleanContent raw)).length ≤ 5) :
    processSourceFile name size raw = SplitAction.skippedNoMatch := by
  rw [processSourceFile_not_gated hgate]
  have hfa := firstAccepted_none hno
  have hbp : buildParts (cleanContent raw) = [] := by
    rw [buildParts, hfa]
  rw [hbp]
  rfl

/-- Witness for C8: a large file whose text has no chapter headings is
skipped with no output. -/
theorem c8_no_match_untouched_witness :
    processSourceFile ("plain.txt".toList) 60000 ("hello world".toList) =
      SplitAction.skippedNoMatch :=
  c8_no_match_untouched ("plain.txt".toList) 60000 ("hello world".toList)
    (by decide) (by decide)

/-- C9: splitting loses no text — the concatenation of the preface body
(when present) and all chapter bodies, in order, is exactly the sanitized
content. -/
theorem c9_lossless (content : List Char) (i : Nat) (ms : List RMatch)
    (hacc : firstAccepted content = some (i, ms)) :
    concatBodies ((buildParts content).map Prod.snd) = content := by
  obtain ⟨hi, hms, hlen, _⟩ := firstAccepted_spec hacc
  have hbounds : ∀ m ∈ ms, m.start < m.mend ∧ m.mend ≤ content.length := by
    intro m hm
    rw [hms] at hm
    exact finditer_sound m hm
  have hchain : List.Chain' (fun a b => a.mend ≤ b.start) ms := by
    rw [hms]
    exact finditer_chain
  rw [buildParts_of_accepted hacc]
  cases ms with
  | nil => simp at hlen
  | cons m0 rest =>
    simp only [List.head?_cons]
    by_cases h0 : 0 < m0.start
    · rw [if_pos h0, List.map_append]
      have hsingle : ([(prefaceTitle, content.take m0.start)].map Prod.snd) =
          [content.take m0.start] := rfl
      rw [hsingle, List.singleton_append, concatBodies_cons,
        chapterBodies_join content rest m0 hbounds hchain,
        List.take_append_drop]
    · rw [if_neg h0, List.nil_append,
        chapterBodies_join content rest m0 hbounds hchain,
        show m0.start = 0 from by omega, List.drop_zero]

/-- Witness for C9: on the ten-chapter manuscript the parts concatenate
back to the exact content. -/
theorem c9_lossless_witness :
    concatBodies ((buildParts exManuscript).map Prod.snd) = exManuscript :=
  c9_lossless exManuscript 0 (finditer Strat.classical exManuscript) (by decide)

/-! ## Claim theorems for the gate (C4) -/

/-- C4 counterexample: a file of size exactly 50 KiB (51200 bytes) is *at*
the threshold, so the claim requires it to be skipped, but the gate of
line 130 (`size < 50 * 1024`) lets it through and the splitter processes
and splits it. -/
theorem c4_counterexample :
    skipGate ("big.txt".toList) (50 * 1024) = false ∧
    processSourceFile ("big.txt".toList) (50 * 1024) exManuscript ≠
      SplitAction.skippedGate := by decide

/-- C4 (amended): a source file whose size is strictly below 50 KiB, or
whose name already contains the split-chapter mark `第<digits>-`, is never
processed: the gate skips it untouched. -/
theorem c4_gate_amended (name : List Char) (size : Nat) (raw : List Char)
    (h : size < 50 * 1024 ∨ hasSplitMark name = true) :
    processSourceFile name size raw = SplitAction.skippedGate := by
  have hg : skipGate name size = true := by
    unfold skipGate
    rcases h with h | h
    · simp [h]
    · simp [h]
  simp [processSourceFile, hg]

/-- Witness for the amended C4: a tiny file and an already-split name are
both gate-skipped. -/
theorem c4_gate_amended_witness :
    processSourceFile ("x.txt".toList) 0 [] = SplitAction.skippedGate ∧
    processSourceFile ("第0001-a.txt".toList) 60000 [] = SplitAction.skippedGate :=
  ⟨c4_gate_amended ("x.txt".toList) 0 [] (Or.inl (by decide)),
   c4_gate_amended ("第0001-a.txt".toList) 60000 [] (Or.inr (by decide))⟩

/-! ## Claim theorem for the range resolver (C3) -/

/-- C3: for every start number and count, range resolution returns at most
`count` files, every returned file's extracted number is at least the
start, the result is sorted ascending by extracted number (the key uses
the sentinel 999999 for unparseable names), and the result is empty when
no chapter file has extracted number at least the start. -/
theorem c3_range_resolution (names : List (List Char)) (startChapter count : Nat) :
    (getChapterFiles names startChapter count).1.length ≤ count ∧
    (∀ f ∈ (getChapterFiles names startChapter count).1,
      startChapter ≤ extractNum f) ∧
    List.Pairwise chapLE (getChapterFiles names startChapter count).1 ∧
    ((∀ f ∈ names, matchesChapterName f = true → extractNum f < startChapter) →
      (getChapterFiles names startChapter count).1 = []) := by
  have hfst : (getChapterFiles names startChapter count).1 =
      (((names.filter matchesChapterName).insertionSort chapLE).filter
        (fun f => decide (startChapter ≤ extractNum f))).take count := rfl
  rw [hfst]
  refine ⟨?_, ?_, ?_, ?_⟩
  · simp only [List.length_take]
    exact min_le_left _ _
  · intro f hf
    have h1 := List.take_subset _ _ hf
    have h2 := (List.mem_filter.1 h1).2
    exact of_decide_eq_true h2
  · have hs : List.Sorted chapLE
        ((names.filter matchesChapterName).insertionSort chapLE) :=
      List.sorted_insertionSort chapLE _
    have hsub : ((((names.filter matchesChapterName).insertionSort chapLE).filter
        (fun f => decide (startChapter ≤ extractNum f))).take count).Sublist
        ((names.filter matchesChapterName).insertionSort chapLE) :=
      (List.take_sublist _ _).trans (List.filter_sublist _)
    exact List.Pairwise.sublist hsub hs
  · intro hall
    have hpot : ((names.filter matchesChapterName).insertionSort chapLE).filter
        (fun f => decide (startChapter ≤ extractNum f)) = [] := by
      rw [List.filter_eq_nil_iff]
      intro f hf
      have hmem : f ∈ names.filter matchesChapterName :=
        ((List.perm_insertionSort chapLE _).mem_iff).1 hf
      obtain ⟨hfn, hfm⟩ := List.mem_filter.1 hmem
      have hlt := hall f hfn hfm
      simp
      omega
    rw [hpot]
    simp

/-- Witness for C3: a bounded selection and the empty case when every file
number is below the requested start. -/
theorem c3_range_resolution_witness :
    (getChapterFiles exChapterNames 2 3).1.length ≤ 3 ∧
    (getChapterFiles ["第0001-a.txt".toList] 5 3).1 = [] :=
  ⟨(c3_range_resolution exChapterNames 2 3).1,
   (c3_range_resolution ["第0001-a.txt".toList] 5 3).2.2.2 (by decide)⟩

/-! ## Merged-block naming lemmas (C7) -/

theorem digitChar_inj_lt : ∀ a < 10, ∀ b < 10,
    Nat.digitChar a = Nat.digitChar b → a = b := by decide

theorem digitChar_ne_dash : ∀ a < 10, Nat.digitChar a ≠ '-' := by decide

theorem natStr_no_dash (n : Nat) : '-' ∉ natStr n := by
  unfold natStr
  split
  · decide
  · intro h
    rcases List.mem_map.1 h with ⟨d, hd, hdc⟩
    have hd2 : d ∈ Nat.digits 10 n := List.mem_reverse.1 hd
    have hlt : d < 10 := Nat.digits_lt_base (by norm_num) hd2
    exact digitChar_ne_dash d hlt hdc

theorem map_digitChar_inj :
    ∀ l1 l2 : List Nat, (∀ x ∈ l1, x < 10) → (∀ x ∈ l2, x < 10) →
      l1.map Nat.digitChar = l2.map Nat.digitChar → l1 = l2 := by
  intro l1
  induction l1 with
  | nil =>
    intro l2 _ _ h
    cases l2 with
    | nil => rfl
    | cons b bs => simp at h
  | cons a as ih =>
    intro l2 h1 h2 h
    cases l2 with
    | nil => simp at h
    | cons b bs =>
      simp only [List.map_cons, List.cons.injEq] at h
      obtain ⟨hab, hrest⟩ := h
      have ha : a < 10 := h1 a (by simp)
      have hb : b < 10 := h2 b (by simp)
      rw [digitChar_inj_lt a ha b hb hab,
        ih bs (by intro x hx; exact h1 x (List.mem_cons_of_mem _ hx))
          (by intro x hx; exact h2 x (List.mem_cons_of_mem _ hx)) hrest]

theorem natStr_inj {m n : Nat} (h : natStr m = natStr n) : m = n := by
  by_cases hm : m = 0
  · by_cases hn : n = 0
    · rw [hm, hn]
    · exfalso
      rw [hm] at h
      unfold natStr at h
      rw [if_pos rfl, if_neg hn] at h
      cases hd : Nat.digits 10 n with
      | nil =>
        have hnn : Nat.digits 10 n ≠ [] := Nat.digits_ne_nil_iff_ne_zero.2 hn
        exact hnn hd
      | cons d ds =>
        rw [hd] at h
        have hlen := congrArg List.length h
        simp only [List.length_map, List.length_reverse, List.length_cons,
          List.length_singleton] at hlen
        have hds : ds = [] := by
          cases ds with
          | nil => rfl
          | cons e es => simp at hlen
        subst hds
        simp only [List.reverse_singleton, List.map_cons, List.map_nil,
          List.cons.injEq] at h
        have hdlt : d < 10 := Nat.digits_lt_base (by norm_num)
          (by rw [hd]; simp)
        have hd0 : d = 0 := by
          have h0 : Nat.digitChar d = '0' := h.1.symm
          exact digitChar_inj_lt d hdlt 0 (by norm_num) (by rw [h0]; decide)
        subst hd0
        have := Nat.ofDigits_digits 10 n
        rw [hd] at this
        simp [Nat.ofDigits] at this
        exact hn this.symm
  · by_cases hn : n = 0
    · exfalso
      rw [hn] at h
      unfold natStr at h
      rw [if_neg hm, if_pos rfl] at h
      cases hd : Nat.digits 10 m with
      | nil =>
        have hnn : Nat.digits 10 m ≠ [] := Nat.digits_ne_nil_iff_ne_zero.2 hm
        exact hnn hd
      | cons d ds =>
        rw [hd] at h
        have hlen := congrArg List.length h
        simp only [List.length_map, List.length_reverse, List.length_cons,
          List.length_singleton] at hlen
        have hds : ds = [] := by
          cases ds with
          | nil => rfl
          | cons e es => simp at hlen
        subst hds
        simp only [List.reverse_singleton, List.map_cons, List.map_nil,
          List.cons.injEq] at h
        have hdlt : d < 10 := Nat.digits_lt_base (by norm_num)
          (by rw [hd]; simp)
        have hd0 : d = 0 := by
          have h0 : Nat.digitChar d = '0' := h.1
          exact digitChar_inj_lt d hdlt 0 (by norm_num) (by rw [h0]; decide)
        subst hd0
        have := Nat.ofDigits_digits 10 m
        rw [hd] at this
        simp [Nat.ofDigits] at this
        exact hm this.symm
    · unfold natStr at h
      rw [if_neg hm, if_neg hn] at h
      have hrev := map_digitChar_inj (Nat.digits 10 m).reverse
        (Nat.digits 10 n).reverse
        (by intro x hx; exact Nat.digits_lt_base (by norm_num) (List.mem_reverse.1 hx))
        (by intro x hx; exact Nat.digits_lt_base (by norm_num) (List.mem_reverse.1 hx))
        h
      have hdig : Nat.digits 10 m = Nat.digits 10 n := List.reverse_inj.1 hrev
      have h5 := congrArg (Nat.ofDigits 10) hdig
      rwa [Nat.ofDigits_digits, Nat.ofDigits_digits] at h5

theorem append_dash_inj :
    ∀ (A B : List Char) {R S : List Char}, '-' ∉ A → '-' ∉ B →
      A ++ '-' :: R = B ++ '-' :: S → A = B ∧ R = S := by
  intro A
  induction A with
  | nil =>
    intro B R S _ hB h
    cases B with
    | nil => simpa using h
    | cons b bs =>
      simp only [List.nil_append, List.cons_append, List.cons.injEq] at h
      exact absurd (by rw [h.1]; simp : '-' ∈ b :: bs) hB
  | cons a as ih =>
    intro B R S hA hB h
    cases B with
    | nil =>
      simp only [List.cons_append, List.nil_append, List.cons.injEq] at h
      exact absurd (by rw [← h.1]; simp : '-' ∈ a :: as) hA
    | cons b bs =>
      simp only [List.cons_append, List.cons.injEq] at h
      obtain ⟨hab, hrest⟩ := h
      obtain ⟨h1, h2⟩ := ih bs (by intro hin; exact hA (List.mem_cons_of_mem _ hin))
        (by intro hin; exact hB (List.mem_cons_of_mem _ hin)) hrest
      exact ⟨by rw [hab, h1], h2⟩

theorem mergeChaptersOutputName_inj (s e t u : Nat)
    (h : mergeChaptersOutputName s e = mergeChaptersOutputName t u) :
    s = t ∧ e = u := by
  unfold mergeChaptersOutputName at h
  simp only [List.append_assoc] at h
  have h1 := List.append_cancel_left h
  rw [show ("-".toList : List Char) = ['-'] from rfl] at h1
  simp only [List.singleton_append] at h1
  obtain ⟨hst, hrest⟩ := append_dash_inj (natStr s) (natStr t)
    (natStr_no_dash s) (natStr_no_dash t) h1
  refine ⟨natStr_inj hst, ?_⟩
  have hlen : (natStr e).length = (natStr u).length := by
    have := congrArg List.length hrest
    simp only [List.length_append] at this
    omega
  obtain ⟨h3, _⟩ := List.append_inj hrest hlen
  exact natStr_inj h3

/-! ## Claim theorems for merged-block naming and reuse (C7) -/

/-- C7 counterexample: when the merged file already exists, `get_plan_task`
reuses it but `get_scan_task` still regenerates it — `merge_chapters` is
called unconditionally at line 251, so the claim that every task-building
caller skips regeneration is false for the scan caller. -/
theorem c7_counterexample :
    scanRegeneratesMerge true = true ∧ planRegeneratesMerge true = false := by
  decide

/-- C7 (amended): the merged-block filename is the same pure, injective
function `合并_第{start}-{end}章.txt` of the `(start, end)` pair in every
caller, and the plan, refine and refine-exec callers skip regeneration
exactly when a file with that name exists; the scan caller always
regenerates. -/
theorem c7_merge_naming_amended :
    (∀ s e, planMergedName s e = mergeChaptersOutputName s e ∧
      refineMergedName s e = mergeChaptersOutputName s e ∧
      execMergedName s e = mergeChaptersOutputName s e) ∧
    (∀ s e t u, mergeChaptersOutputName s e = mergeChaptersOutputName t u →
      s = t ∧ e = u) ∧
    (∀ b, planRegeneratesMerge b = !b ∧ refineRegeneratesMerge b = !b ∧
      execRegeneratesMerge b = !b) ∧
    scanRegeneratesMerge true = true :=
  ⟨fun _ _ => ⟨rfl, rfl, rfl⟩,
   fun s e t u h => mergeChaptersOutputName_inj s e t u h,
   fun _ => ⟨rfl, rfl, rfl⟩, rfl⟩

/-- Witness for the amended C7 at the pair (10, 14). -/
theorem c7_merge_naming_witness :
    planMergedName 10 14 = mergeChaptersOutputName 10 14 ∧ (10 = 10 ∧ 14 = 14) :=
  ⟨(c7_merge_naming_amended.1 10 14).1,
   c7_merge_naming_amended.2.1 10 14 10 14 rfl⟩

end NovelRefiner
